import Mathlib

/-!
# Verification of the remote-TLS session client (witness-sdk)

Shallow embedding of the session/transcript-management layer of the
witness-sdk repository: the `makeAPITLSClient` factory
(transcript store, redaction policy, pull loop, cancel/finish lifecycle)
and the `generateProviderReceipt` orchestrator.

Bytes are modelled as `Nat`, byte buffers as `List Nat`.  TLS crypto and
the relay RPC are opaque collaborators: the model records the calls the
client makes on them (key rotations, `tls.end`, relay indices) rather
than their internals.
-/

/-! ## Data model -/

/-- Sender tag of a transcript record
(`TranscriptMessageSenderType` CLIENT / SERVER). -/
inductive Sender where
  | client
  | server
deriving DecidableEq, Repr

/-- Negotiated TLS version (`metadata.version`). -/
inductive TlsVersion where
  | tls12
  | tls13
deriving DecidableEq, Repr

/-- Client write-redaction mode (`defaultWriteRedactionMode`). -/
inductive WriteMode where
  | keyUpdate
  | zk
deriving DecidableEq, Repr

/-- TLS record content type, as carried in a decrypted packet context
(`ctx.contentType`).  Only the APPLICATION_DATA distinction matters to the
session layer. -/
inductive RecContentType where
  | applicationData
  | handshake
  | alert
deriving DecidableEq, Repr

/-- A reveal decision attached to a transcript record
(`packet.reveal`): `complete` discloses the record fully, `zk` discloses a
committed redacted plaintext.  Absence (`Option.none` at the record) means
the record is never disclosed. -/
inductive Reveal where
  | complete
  | zk (redactedPlaintext : List Nat)
deriving DecidableEq, Repr

/-- Decryption context of a record (`packet.ctx`): either still plaintext
(handshake records before encryption starts) or a decrypted ciphertext
record with its plaintext and content type. -/
inductive PacketCtx where
  | plaintext
  | ciphertext (plaintext : List Nat) (contentType : RecContentType)
deriving DecidableEq, Repr

/-- A transcript record (`CompleteTLSPacket`): first byte of the record
header, decryption context, sender, relay-assigned index and optional
reveal decision. -/
structure Packet where
  headerFirstByte : Nat
  ctx : PacketCtx
  sender : Sender
  index : Int
  reveal : Option Reveal
deriving DecidableEq, Repr

/-- A byte range `[fromIndex, toIndex)` inside a plaintext buffer
(`ArraySlice`). -/
structure ArraySlice where
  fromIndex : Nat
  toIndex : Nat
deriving DecidableEq, Repr

/-- Fallback record used with `List.getD`. -/
def dummyPacket : Packet :=
  { headerFirstByte := 0, ctx := .plaintext, sender := .server
    index := 0, reveal := none }

/-- `PACKET_TYPE.WRAPPED_RECORD`: first header byte of a wrapped
(encrypted) TLS record. -/
def WRAPPED_RECORD : Nat := 23

/-- Bytes of a string, for concrete scenarios. -/
def strBytes (s : String) : List Nat :=
  s.data.map Char.toNat

/-- JS `data.slice(a, b)` on a byte buffer (both ends clamped,
empty when `b ≤ a`). -/
def sliceBytes (data : List Nat) (a b : Nat) : List Nat :=
  (data.take b).drop a

/-! ## Key-update write mode (`writeRedactedWithKeyUpdate`)

The key-update path is modelled as the trace of calls it performs: each
`writeWithReveal` call either writes one record (optionally bracketed by
two `updateTrafficKeys` calls) or rotates keys.  A record event carries
the slice bounds `[start, stop)` used at the call site together with the
bytes actually sliced, and the reveal decision the call assigns to the
freshly pushed record. -/

/-- One event of the key-update write trace: a traffic-key rotation
(`tls.updateTrafficKeys()`) or a written record with its slice bounds,
bytes and assigned reveal decision. -/
inductive KUEvent where
  | updateKeys
  | record (start stop : Nat) (bytes : List Nat) (reveal : Option Reveal)
deriving DecidableEq, Repr

/-- `writeWithReveal(data, reveal)`: when `reveal` is false the write is
bracketed by two key rotations and the record keeps no reveal decision
(`delete lastPkt.reveal`); when true the record is marked `complete`.
`start`/`stop` record the slice bounds the caller passed. -/
def writeWithReveal (bytes : List Nat) (start stop : Nat) :
    Bool → List KUEvent
  | true => [.record start stop bytes (some .complete)]
  | false => [.updateKeys, .record start stop bytes none, .updateKeys]

/-- Loop body of `writeRedactedWithKeyUpdate`: walk the redacted sections
keeping `currentIndex`, writing the disclosed span before each section
(only when non-empty) and then the section itself with no reveal. -/
def kuLoop (data : List Nat) : Nat → List ArraySlice → List KUEvent
  | _, [] => []
  | currentIndex, section_ :: rest =>
    (if (sliceBytes data currentIndex section_.fromIndex).length ≠ 0 then
      writeWithReveal (sliceBytes data currentIndex section_.fromIndex)
        currentIndex section_.fromIndex true
    else []) ++
    writeWithReveal (sliceBytes data section_.fromIndex section_.toIndex)
      section_.fromIndex section_.toIndex false ++
    kuLoop data section_.toIndex rest

/-- `redactedSections?.[redactedSections.length - 1]?.toIndex || 0`. -/
def lastBlockStart (sections : List ArraySlice) : Nat :=
  match sections.getLast? with
  | some s => s.toIndex
  | none => 0

/-- `writeRedactedWithKeyUpdate()`: the section loop followed by the final
disclosed span `data.slice(lastBlockStart)` (written only when
non-empty). -/
def writeRedactedWithKeyUpdate (data : List Nat)
    (redactedSections : List ArraySlice) : List KUEvent :=
  kuLoop data 0 redactedSections ++
  (if (data.drop (lastBlockStart redactedSections)).length ≠ 0 then
    writeWithReveal (data.drop (lastBlockStart redactedSections))
      (lastBlockStart redactedSections) data.length true
  else [])

/-- Disjoint ascending well-formedness of redacted sections, relative to a
lower bound: each section starts at or after the bound, is properly
ordered, and the next section starts at or after its end. -/
def slicesWellFormed : Nat → List ArraySlice → Bool
  | _, [] => true
  | lo, s :: rest =>
    decide (lo ≤ s.fromIndex) && decide (s.fromIndex ≤ s.toIndex) &&
      slicesWellFormed s.toIndex rest

lemma slicesWellFormed_mem {lo : Nat} {l : List ArraySlice}
    (h : slicesWellFormed lo l = true) :
    ∀ s ∈ l, lo ≤ s.fromIndex ∧ s.fromIndex ≤ s.toIndex := by
  induction l generalizing lo with
  | nil => intro s hs; exact absurd hs (List.not_mem_nil s)
  | cons a rest ih =>
    simp only [slicesWellFormed, Bool.and_eq_true, decide_eq_true_eq] at h
    obtain ⟨⟨h1, h2⟩, h3⟩ := h
    intro s hs
    rcases List.mem_cons.mp hs with hs | hs
    · subst hs; exact ⟨h1, h2⟩
    · have := ih h3 s hs
      exact ⟨le_trans (le_trans h1 h2) this.1, this.2⟩

lemma slicesWellFormed_lastBlockStart {lo : Nat} {l : List ArraySlice}
    (h : slicesWellFormed lo l = true) :
    ∀ s ∈ l, s.toIndex ≤ lastBlockStart l := by
  induction l generalizing lo with
  | nil => intro s hs; exact absurd hs (List.not_mem_nil s)
  | cons a rest ih =>
    simp only [slicesWellFormed, Bool.and_eq_true, decide_eq_true_eq] at h
    obtain ⟨⟨_, _⟩, h3⟩ := h
    intro s hs
    cases rest with
    | nil =>
      rcases List.mem_cons.mp hs with hs | hs
      · subst hs; simp [lastBlockStart]
      · exact absurd hs (List.not_mem_nil s)
    | cons b rest' =>
      have hlast :
          lastBlockStart (a :: b :: rest') = lastBlockStart (b :: rest') := by
        simp [lastBlockStart, List.getLast?_cons_cons]
      rw [hlast]
      rcases List.mem_cons.mp hs with hs | hs
      · subst hs
        have h3' := h3
        simp only [slicesWellFormed, Bool.and_eq_true, decide_eq_true_eq] at h3'
        obtain ⟨⟨hb1, hb2⟩, _⟩ := h3'
        have hbmem : b ∈ b :: rest' := List.mem_cons_self _ _
        have := ih h3 b hbmem
        exact le_trans hb1 (le_trans hb2 this)
      · exact ih h3 s hs

/-- Core invariant of the key-update loop: every record event starts at or
after the running index, its bytes are the corresponding slice of the
buffer, `complete` records are position-disjoint from every remaining
section, and undisclosed records carry exactly a section's bounds. -/
lemma kuLoop_records (data : List Nat) :
    ∀ (l : List ArraySlice) (cur : Nat), slicesWellFormed cur l = true →
    ∀ ev ∈ kuLoop data cur l, ∀ a b bytes r,
      ev = KUEvent.record a b bytes r →
      cur ≤ a ∧ bytes = sliceBytes data a b ∧
      (r = some .complete →
        ∀ s ∈ l, b ≤ s.fromIndex ∨ s.toIndex ≤ a) ∧
      (r = none → ∃ s ∈ l, a = s.fromIndex ∧ b = s.toIndex) := by
  intro l
  induction l with
  | nil =>
    intro cur _ ev hev
    simp [kuLoop] at hev
  | cons sec rest ih =>
    intro cur hwf ev hev a b bytes r hrec
    have hwf' := hwf
    simp only [slicesWellFormed, Bool.and_eq_true, decide_eq_true_eq] at hwf'
    obtain ⟨⟨hcur_from, hfrom_to⟩, hwf_rest⟩ := hwf'
    have hrest_mem := slicesWellFormed_mem hwf_rest
    simp only [kuLoop, List.mem_append] at hev
    rcases hev with (hev | hev) | hev
    · -- disclosed span before the section
      split at hev
      · simp only [writeWithReveal, List.mem_singleton] at hev
        subst hev
        cases hrec
        refine ⟨le_refl _, rfl, ?_, ?_⟩
        · intro _ s hs
          rcases List.mem_cons.mp hs with hs | hs
          · subst hs; exact Or.inl (le_refl _)
          · exact Or.inl (le_trans hfrom_to (hrest_mem s hs).1)
        · intro hnone; cases hnone
      · exact absurd hev (List.not_mem_nil ev)
    · -- the redacted section itself
      simp only [writeWithReveal, List.mem_cons,
        List.mem_singleton] at hev
      rcases hev with hev | hev | hev
      · subst hev; cases hrec
      · subst hev
        cases hrec
        refine ⟨hcur_from, rfl, ?_, ?_⟩
        · intro hcomp; cases hcomp
        · intro _
          exact ⟨sec, List.mem_cons_self _ _, rfl, rfl⟩
      · rcases hev with hev | hev
        · subst hev; cases hrec
        · exact absurd hev (List.not_mem_nil ev)
    · -- recursive tail
      have := ih sec.toIndex hwf_rest ev hev a b bytes r hrec
      obtain ⟨hge, hbytes, hcomp, hnone⟩ := this
      refine ⟨le_trans (le_trans hcur_from hfrom_to) hge, hbytes, ?_, ?_⟩
      · intro hc s hs
        rcases List.mem_cons.mp hs with hs | hs
        · subst hs; exact Or.inr hge
        · exact hcomp hc s hs
      · intro hn
        obtain ⟨s, hs, hab⟩ := hnone hn
        exact ⟨s, List.mem_cons_of_mem _ hs, hab⟩

/-- C1 — In key-update write mode, for every input buffer and every
disjoint ascending list of RedactedSlices, every record the write path
marks `Complete` is position-disjoint from every RedactedSlice range (its
bytes are the slice of the buffer strictly between/around the sections),
and every record written with no reveal decision carries exactly one
RedactedSlice's bounds. -/
theorem writeRedactedWithKeyUpdate_complete_disjoint
    (data : List Nat) (sections : List ArraySlice)
    (hwf : slicesWellFormed 0 sections = true) :
    ∀ ev ∈ writeRedactedWithKeyUpdate data sections, ∀ a b bytes r,
      ev = KUEvent.record a b bytes r →
      bytes = sliceBytes data a b ∧
      (r = some .complete →
        ∀ s ∈ sections, b ≤ s.fromIndex ∨ s.toIndex ≤ a) ∧
      (r = none → ∃ s ∈ sections, a = s.fromIndex ∧ b = s.toIndex) := by
  intro ev hev a b bytes r hrec
  simp only [writeRedactedWithKeyUpdate, List.mem_append] at hev
  rcases hev with hev | hev
  · have := kuLoop_records data sections 0 hwf ev hev a b bytes r hrec
    exact ⟨this.2.1, this.2.2.1, this.2.2.2⟩
  · split at hev
    · simp only [writeWithReveal, List.mem_singleton] at hev
      subst hev
      cases hrec
      refine ⟨?_, ?_, ?_⟩
      · simp [sliceBytes, List.take_length]
      · intro _ s hs
        exact Or.inr (slicesWellFormed_lastBlockStart hwf s hs)
      · intro hnone; cases hnone
    · exact absurd hev (List.not_mem_nil ev)

/-- Witness for C1 at a concrete buffer and slice set. -/
theorem writeRedactedWithKeyUpdate_complete_disjoint_witness :
    slicesWellFormed 0 [⟨2, 4⟩] = true ∧
    (∀ ev ∈ writeRedactedWithKeyUpdate [10, 11, 12, 13, 14, 15] [⟨2, 4⟩],
      ∀ a b bytes r, ev = KUEvent.record a b bytes r →
      bytes = sliceBytes [10, 11, 12, 13, 14, 15] a b ∧
      (r = some .complete → ∀ s ∈ [(⟨2, 4⟩ : ArraySlice)],
        b ≤ s.fromIndex ∨ s.toIndex ≤ a) ∧
      (r = none → ∃ s ∈ [(⟨2, 4⟩ : ArraySlice)],
        a = s.fromIndex ∧ b = s.toIndex)) :=
  ⟨by decide,
    writeRedactedWithKeyUpdate_complete_disjoint
      [10, 11, 12, 13, 14, 15] [⟨2, 4⟩] (by decide)⟩

/-- C10 counterexample — with an empty RedactedSlice list AND an empty
buffer, the key-update write path emits no record at all (the final
disclosed span is skipped because `block.length` is 0), so the claimed
"exactly one client record" fails. -/
theorem writeKU_empty_slices_empty_buffer_cex :
    ¬ (writeRedactedWithKeyUpdate ([] : List Nat) []).length = 1 := by
  decide

/-- C10 (amended) — In key-update mode, a write with an empty
RedactedSlice list and a non-empty buffer emits exactly one record,
holding the whole buffer and marked `Complete`; and with an empty slice
list no traffic-key rotation ever happens (for any buffer, including the
empty one, where no record is written either). -/
theorem writeKU_empty_slices_spec (data : List Nat) :
    (data ≠ [] →
      writeRedactedWithKeyUpdate data [] =
        [KUEvent.record 0 data.length data (some .complete)]) ∧
    KUEvent.updateKeys ∉ writeRedactedWithKeyUpdate data [] := by
  constructor
  · intro hne
    simp only [writeRedactedWithKeyUpdate, kuLoop, lastBlockStart,
      List.getLast?_nil, List.drop_zero, List.nil_append]
    rw [if_pos (by simpa [List.length_eq_zero] using hne)]
    rfl
  · intro hmem
    simp only [writeRedactedWithKeyUpdate, kuLoop, lastBlockStart,
      List.getLast?_nil, List.drop_zero, List.nil_append] at hmem
    split at hmem
    · simp [writeWithReveal] at hmem
    · exact absurd hmem (List.not_mem_nil _)

/-- Witness for C10 (amended) at a concrete non-empty buffer. -/
theorem writeKU_empty_slices_spec_witness :
    writeRedactedWithKeyUpdate [7, 8, 9] [] =
      [KUEvent.record 0 3 [7, 8, 9] (some .complete)] :=
  (writeKU_empty_slices_spec [7, 8, 9]).1 (by decide)

/-! ## Transcript store and zk write mode -/

/-- `getLastBlock(sender)` combined with the mutation performed on its
result: update the most recently appended record of the given sender
(backward scan over `allPackets`), leaving the transcript unchanged when
that sender has no record. -/
def modifyLastBySender (s : Sender) (f : Packet → Packet) :
    List Packet → List Packet
  | [] => []
  | p :: rest =>
    if rest.any (fun q => decide (q.sender = s)) then
      p :: modifyLastBySender s f rest
    else if p.sender = s then f p :: rest
    else p :: rest

lemma modifyLastBySender_append (s : Sender) (f : Packet → Packet)
    (tr : List Packet) (p : Packet) (hp : p.sender = s) :
    modifyLastBySender s f (tr ++ [p]) = tr ++ [f p] := by
  induction tr with
  | nil => simp [modifyLastBySender, hp]
  | cons q tr' ih =>
    have hany : (tr' ++ [p]).any (fun q => decide (q.sender = s)) = true := by
      simp [List.any_append, hp]
    simp only [List.cons_append, modifyLastBySender, List.append_eq, hany,
      if_true, ih]

/-- `REDACTION_CHAR_CODE`: the filler byte written over redacted
positions (`'*'`). -/
def redactionCharCode : Nat := 42

/-- Whether position `i` falls inside any of the given slices. -/
def inAnySlice (slices : List ArraySlice) (i : Nat) : Bool :=
  slices.any fun s => decide (s.fromIndex ≤ i ∧ i < s.toIndex)

def redactSlicesFrom (slices : List ArraySlice) :
    Nat → List Nat → List Nat
  | _, [] => []
  | i, b :: rest =>
    (if inAnySlice slices i then redactionCharCode else b) ::
      redactSlicesFrom slices (i + 1) rest

/-- Modelled from the spec: `redactSlices` (imported from `src/utils`,
not part of the sources under verification) blanks every RedactedSlice
range of the buffer, replacing each byte inside a slice with the
same-length filler `redactionCharCode` and leaving all other bytes
unchanged. -/
def redactSlices (data : List Nat) (slices : List ArraySlice) : List Nat :=
  redactSlicesFrom slices 0 data

lemma redactSlicesFrom_length (slices : List ArraySlice)
    (data : List Nat) : ∀ i,
    (redactSlicesFrom slices i data).length = data.length := by
  induction data with
  | nil => intro i; rfl
  | cons b rest ih =>
    intro i
    simp [redactSlicesFrom, ih]

lemma redactSlicesFrom_getD (slices : List ArraySlice)
    (data : List Nat) : ∀ i j, j < data.length →
    (redactSlicesFrom slices i data).getD j 0 =
      if inAnySlice slices (i + j) then redactionCharCode
      else data.getD j 0 := by
  induction data with
  | nil => intro i j hj; simp at hj
  | cons b rest ih =>
    intro i j hj
    cases j with
    | zero => simp [redactSlicesFrom, List.getD_cons_zero]
    | succ j' =>
      have hj' : j' < rest.length := by
        simpa [Nat.succ_lt_succ_iff] using hj
      have := ih (i + 1) j' hj'
      simp only [redactSlicesFrom, List.getD_cons_succ, this]
      have harith : i + 1 + j' = i + (j' + 1) := by omega
      rw [harith]

/-- The client application-data record appended by `tls.write(data)`
through the relay-push write callback: wrapped-record header, plaintext
equal to the written bytes, client sender, index from the push response,
no reveal decision yet. -/
def tlsWriteAppData (tr : List Packet) (idx : Int) (data : List Nat) :
    List Packet :=
  tr ++ [{ headerFirstByte := WRAPPED_RECORD
           ctx := .ciphertext data .applicationData
           sender := .client
           index := idx
           reveal := none }]

/-- `writeRedactedZk()`: write the whole buffer as one record, then mark
the last client block `ZK(redactSlices(data, redactedSections))`. -/
def writeRedactedZk (tr : List Packet) (idx : Int) (data : List Nat)
    (redactedSections : List ArraySlice) : List Packet :=
  modifyLastBySender .client
    (fun p => { p with reveal := some (.zk (redactSlices data redactedSections)) })
    (tlsWriteAppData tr idx data)

/-- C2 scenario input: `"GET /x HTTP/1.1\r\nAuthorization: secret123\r\n\r\n"`. -/
def c2Input : List Nat :=
  strBytes "GET /x HTTP/1.1\r\nAuthorization: secret123\r\n\r\n"

/-- C2 scenario expected payload: the input with `"secret123"` blanked. -/
def c2Redacted : List Nat :=
  strBytes "GET /x HTTP/1.1\r\nAuthorization: *********\r\n\r\n"

/-- C2 — In zk write mode, a write appends exactly one client record,
whose reveal decision is `ZK` with payload `redactSlices(data, sections)`
(never `Complete`); the payload has the input's length, is the filler
byte at every position inside a RedactedSlice and the input byte
elsewhere.  For the scenario input with a slice covering `"secret123"`,
the payload equals the input with `"secret123"` blanked. -/
theorem writeRedactedZk_spec :
    (∀ (tr : List Packet) (idx : Int) (data : List Nat)
        (secs : List ArraySlice),
      writeRedactedZk tr idx data secs =
        tr ++ [{ headerFirstByte := WRAPPED_RECORD
                 ctx := .ciphertext data .applicationData
                 sender := .client
                 index := idx
                 reveal := some (.zk (redactSlices data secs)) }]) ∧
    (∀ (data : List Nat) (secs : List ArraySlice),
      (redactSlices data secs).length = data.length) ∧
    (∀ (data : List Nat) (secs : List ArraySlice) (i : Nat),
      i < data.length →
      (redactSlices data secs).getD i 0 =
        if inAnySlice secs i then redactionCharCode else data.getD i 0) ∧
    writeRedactedZk [] 0 c2Input [⟨32, 41⟩] =
      [{ headerFirstByte := WRAPPED_RECORD
         ctx := .ciphertext c2Input .applicationData
         sender := .client
         index := 0
         reveal := some (.zk c2Redacted) }] := by
  refine ⟨?_, ?_, ?_, ?_⟩
  · intro tr idx data secs
    exact modifyLastBySender_append _ _ tr _ rfl
  · intro data secs
    exact redactSlicesFrom_length secs data 0
  · intro data secs i hi
    have := redactSlicesFrom_getD secs data 0 i hi
    simpa using this
  · have hred : redactSlices c2Input [⟨32, 41⟩] = c2Redacted := by decide
    have happ := modifyLastBySender_append Sender.client
      (fun p =>
        { p with reveal := some (.zk (redactSlices c2Input [⟨32, 41⟩])) })
      []
      { headerFirstByte := WRAPPED_RECORD
        ctx := .ciphertext c2Input .applicationData
        sender := .client, index := 0, reveal := none } rfl
    rw [writeRedactedZk, tlsWriteAppData, happ, hred]
    rfl

/-- Witness for C2 at concrete inputs. -/
theorem writeRedactedZk_spec_witness :
    (redactSlices [1, 2, 3] [⟨1, 2⟩]).length = 3 ∧
    (1 < 3 → (redactSlices [1, 2, 3] [⟨1, 2⟩]).getD 1 0 =
      if inAnySlice [⟨1, 2⟩] 1 then redactionCharCode
      else ([1, 2, 3] : List Nat).getD 1 0) :=
  ⟨writeRedactedZk_spec.2.1 [1, 2, 3] [⟨1, 2⟩],
    fun h => writeRedactedZk_spec.2.2.1 [1, 2, 3] [⟨1, 2⟩] 1 h⟩

/-! ## Finalize: transcript marking (`finish`)

`finish` first decides server-side disclosure (all-`Complete` when no
response-redaction function was supplied, otherwise `ZK` on the blocks the
function matches), then walks the transcript marking every client
ciphertext record up to — but excluding — the first client
application-data record. -/

/-- `isApplicationData(packet)`: a ciphertext record whose content type is
APPLICATION_DATA, or (TLS 1.2) whose record header starts with the
wrapped-record byte. -/
def isAppDataB (ver : TlsVersion) (p : Packet) : Bool :=
  match p.ctx with
  | .plaintext => false
  | .ciphertext _ ct =>
    decide (ct = .applicationData) ||
      (decide (p.headerFirstByte = WRAPPED_RECORD) && decide (ver = .tls12))

/-- Loop-break condition of the handshake-disclosure scan: the first
client application-data record. -/
def hsBreakPred (ver : TlsVersion) (p : Packet) : Bool :=
  decide (p.sender = .client) && isAppDataB ver p

/-- Reveal decision assigned to client handshake records: `complete` in
key-update mode, `ZK` with the full record plaintext in zk mode. -/
def hsDecision (mode : WriteMode) (pt : List Nat) : Reveal :=
  match mode with
  | .keyUpdate => .complete
  | .zk => .zk pt

/-- Marking applied by one non-breaking iteration of the handshake scan:
client ciphertext records receive the handshake decision, all other
records pass through. -/
def hsMark (mode : WriteMode) (p : Packet) : Packet :=
  if p.sender = .client then
    match p.ctx with
    | .plaintext => p
    | .ciphertext pt _ => { p with reveal := some (hsDecision mode pt) }
  else p

/-- The client handshake-disclosure loop of `finish` (mark until the
first client application-data record, then break). -/
def clientScan (mode : WriteMode) (ver : TlsVersion) :
    List Packet → List Packet
  | [] => []
  | p :: rest =>
    if hsBreakPred ver p then p :: rest
    else hsMark mode p :: clientScan mode ver rest

/-- Position of the first client application-data record (transcript
length when there is none). -/
def firstClientAppData (ver : TlsVersion) : List Packet → Nat
  | [] => 0
  | p :: rest =>
    if hsBreakPred ver p then 0 else firstClientAppData ver rest + 1

/-- TLS1.3 application-data plaintext carries a trailing content-type
byte that is stripped (`b.ctx.plaintext.slice(0, -1)`) before the
response-redaction function sees it; TLS1.2 plaintext is used as is. -/
def stripCT (ver : TlsVersion) (pt : List Nat) : List Nat :=
  match ver with
  | .tls13 => pt.dropLast
  | .tls12 => pt

/-- The `serverBlocks` collection loop of `finish`: every server
ciphertext application-data record, paired with its position in
`allPackets` and its (version-stripped) plaintext. -/
def gatherServerBlocksFrom (ver : TlsVersion) :
    Nat → List Packet → List (Nat × List Nat)
  | _, [] => []
  | i, p :: rest =>
    (match p.ctx with
     | .ciphertext pt _ =>
       if p.sender = .server ∧ isAppDataB ver p = true then
         [(i, stripCT ver pt)]
       else []
     | .plaintext => []) ++ gatherServerBlocksFrom ver (i + 1) rest

def gatherServerBlocks (ver : TlsVersion) (tr : List Packet) :
    List (Nat × List Nat) :=
  gatherServerBlocksFrom ver 0 tr

/-- Intersection of a disclosable slice with a block spanning
`[off, off + len)` of the concatenated response, re-based to the block. -/
def clampSliceToBlock (off len : Nat) (s : ArraySlice) : Option ArraySlice :=
  if max s.fromIndex off < min s.toIndex (off + len) then
    some ⟨max s.fromIndex off - off, min s.toIndex (off + len) - off⟩
  else none

/-- A block plaintext with every byte outside the given disclosable
slices replaced by the filler byte. -/
def keepOnlySlicesFrom (slices : List ArraySlice) :
    Nat → List Nat → List Nat
  | _, [] => []
  | i, b :: rest =>
    (if inAnySlice slices i then b else redactionCharCode) ::
      keepOnlySlicesFrom slices (i + 1) rest

def getBlocksToRevealGo (slices : List ArraySlice) :
    List (Nat × List Nat) → Nat → List (Nat × List Nat)
  | [], _ => []
  | (i, pt) :: rest, off =>
    (if (slices.filterMap (clampSliceToBlock off pt.length)).isEmpty then []
     else [(i, keepOnlySlicesFrom
        (slices.filterMap (clampSliceToBlock off pt.length)) 0 pt)]) ++
    getBlocksToRevealGo slices rest (off + pt.length)

/-- Modelled from the spec: `getBlocksToReveal` (imported from
`src/utils`, not part of the sources under verification).  The
response-redaction function maps the captured application-data plaintext
(the blocks' concatenation) to disclosable slices; exactly the blocks
overlapping some disclosable slice are matched and returned with a
redacted plaintext blanking every byte outside those slices; unmatched
blocks are omitted (they receive no reveal decision). -/
def getBlocksToReveal (blocks : List (Nat × List Nat))
    (redact : List Nat → List ArraySlice) : List (Nat × List Nat) :=
  getBlocksToRevealGo (redact (blocks.map Prod.snd).flatten) blocks 0

/-- `allPackets[i].reveal = {...}` for a single matched block. -/
def setRevealAt (r : Reveal) : Nat → List Packet → List Packet
  | _, [] => []
  | 0, p :: rest => { p with reveal := some r } :: rest
  | Nat.succ n, p :: rest => p :: setRevealAt r n rest

/-- The `for(const packet of serverPacketsToReveal)` loop of `finish`. -/
def applyZkReveals : List (Nat × List Nat) → List Packet → List Packet
  | [], tr => tr
  | (i, pt) :: rest, tr => applyZkReveals rest (setRevealAt (.zk pt) i tr)

/-- Server-side disclosure of `finish`: with no response-redaction
function every server record is marked `complete`; with one, the matched
blocks returned by `getBlocksToReveal` are marked `ZK`. -/
def serverScan (ver : TlsVersion)
    (redactResponse : Option (List Nat → List ArraySlice))
    (tr : List Packet) : List Packet :=
  match redactResponse with
  | none =>
    tr.map fun p =>
      if p.sender = .server then { p with reveal := some .complete } else p
  | some f => applyZkReveals (getBlocksToReveal (gatherServerBlocks ver tr) f) tr

/-- The complete transcript marking `finish` performs before preparing
reveal blocks: server-side disclosure followed by the client
handshake-disclosure scan. -/
def finishMark (mode : WriteMode) (ver : TlsVersion)
    (redactResponse : Option (List Nat → List ArraySlice))
    (tr : List Packet) : List Packet :=
  clientScan mode ver (serverScan ver redactResponse tr)

/-! ### List access helpers -/

lemma getD_of_length_le {α : Type} (l : List α) (d : α) :
    ∀ i, l.length ≤ i → l.getD i d = d := by
  induction l with
  | nil => intro i _; rfl
  | cons a t ih =>
    intro i hi
    cases i with
    | zero => simp at hi
    | succ j =>
      rw [List.getD_cons_succ]
      exact ih j (by simpa [Nat.succ_le_succ_iff] using hi)

lemma getD_append_lt {α : Type} (l l' : List α) (d : α) :
    ∀ i, i < l.length → (l ++ l').getD i d = l.getD i d := by
  induction l with
  | nil => intro i hi; simp at hi
  | cons a t ih =>
    intro i hi
    cases i with
    | zero => rfl
    | succ j =>
      simp only [List.cons_append, List.getD_cons_succ]
      exact ih j (by simpa [Nat.succ_lt_succ_iff] using hi)

lemma getD_append_ge {α : Type} (l l' : List α) (d : α) :
    ∀ i, l.length ≤ i → (l ++ l').getD i d = l'.getD (i - l.length) d := by
  induction l with
  | nil => intro i _; simp
  | cons a t ih =>
    intro i hi
    cases i with
    | zero => simp at hi
    | succ j =>
      have hj : t.length ≤ j := by simpa [Nat.succ_le_succ_iff] using hi
      simp only [List.cons_append, List.getD_cons_succ, List.length_cons]
      rw [ih j hj]
      congr 1
      omega

lemma getD_map_of_lt {α β : Type} (f : α → β) (l : List α) (d : α) (d' : β) :
    ∀ i, i < l.length → (l.map f).getD i d' = f (l.getD i d) := by
  induction l with
  | nil => intro i hi; simp at hi
  | cons a t ih =>
    intro i hi
    cases i with
    | zero => rfl
    | succ j =>
      simp only [List.map_cons, List.getD_cons_succ]
      exact ih j (by simpa [Nat.succ_lt_succ_iff] using hi)

lemma getD_take_of_lt {α : Type} (l : List α) (d : α) :
    ∀ k i, i < k → (l.take k).getD i d = l.getD i d := by
  induction l with
  | nil => intro k i _; simp
  | cons a t ih =>
    intro k i hik
    cases k with
    | zero => omega
    | succ k' =>
      cases i with
      | zero => rfl
      | succ j =>
        simp only [List.take_succ_cons, List.getD_cons_succ]
        exact ih k' j (by omega)

lemma getD_drop_add {α : Type} (l : List α) (d : α) :
    ∀ k j, (l.drop k).getD j d = l.getD (k + j) d := by
  induction l with
  | nil => intro k j; simp
  | cons a t ih =>
    intro k j
    cases k with
    | zero => simp
    | succ k' =>
      have harith : k' + 1 + j = (k' + j) + 1 := by omega
      rw [List.drop_succ_cons, ih k' j, harith, List.getD_cons_succ]

/-! ### Handshake-scan lemmas -/

lemma firstClientAppData_le_length (ver : TlsVersion) (tr : List Packet) :
    firstClientAppData ver tr ≤ tr.length := by
  induction tr with
  | nil => simp [firstClientAppData]
  | cons p rest ih =>
    by_cases h : hsBreakPred ver p
    · simp [firstClientAppData, h]
    · simp only [firstClientAppData, if_neg h, List.length_cons]
      omega

lemma clientScan_eq (mode : WriteMode) (ver : TlsVersion)
    (tr : List Packet) :
    clientScan mode ver tr =
      (tr.take (firstClientAppData ver tr)).map (hsMark mode) ++
        tr.drop (firstClientAppData ver tr) := by
  induction tr with
  | nil => rfl
  | cons p rest ih =>
    by_cases h : hsBreakPred ver p
    · simp [clientScan, firstClientAppData, h]
    · simp [clientScan, firstClientAppData, h, ih, List.take_succ_cons,
        List.drop_succ_cons]

lemma clientScan_length (mode : WriteMode) (ver : TlsVersion)
    (tr : List Packet) : (clientScan mode ver tr).length = tr.length := by
  induction tr with
  | nil => rfl
  | cons p rest ih =>
    by_cases h : hsBreakPred ver p
    · simp [clientScan, h]
    · simp [clientScan, h, ih]

lemma hsBreakPred_set_reveal (ver : TlsVersion) (p : Packet)
    (r : Option Reveal) :
    hsBreakPred ver { p with reveal := r } = hsBreakPred ver p := rfl

/-! ### Server-scan helper lemmas -/

lemma setRevealAt_length (r : Reveal) :
    ∀ (i : Nat) (tr : List Packet),
      (setRevealAt r i tr).length = tr.length := by
  intro i tr
  induction tr generalizing i with
  | nil => cases i <;> rfl
  | cons p rest ih =>
    cases i with
    | zero => rfl
    | succ n => simp [setRevealAt, ih n]

lemma setRevealAt_getD_ne (r : Reveal) :
    ∀ (tr : List Packet) (i j : Nat), j ≠ i →
      (setRevealAt r i tr).getD j dummyPacket = tr.getD j dummyPacket := by
  intro tr
  induction tr with
  | nil => intro i j _; cases i <;> rfl
  | cons p rest ih =>
    intro i j hne
    cases i with
    | zero =>
      cases j with
      | zero => omega
      | succ m => simp [setRevealAt, List.getD_cons_succ]
    | succ n =>
      cases j with
      | zero => rfl
      | succ m =>
        simp only [setRevealAt, List.getD_cons_succ]
        exact ih n m (by omega)

lemma setRevealAt_getD_eq (r : Reveal) :
    ∀ (tr : List Packet) (i : Nat), i < tr.length →
      (setRevealAt r i tr).getD i dummyPacket =
        { tr.getD i dummyPacket with reveal := some r } := by
  intro tr
  induction tr with
  | nil => intro i hi; simp at hi
  | cons p rest ih =>
    intro i hi
    cases i with
    | zero => rfl
    | succ n =>
      simp only [setRevealAt, List.getD_cons_succ]
      exact ih n (by simpa [Nat.succ_lt_succ_iff] using hi)

lemma applyZkReveals_length :
    ∀ (pairs : List (Nat × List Nat)) (tr : List Packet),
      (applyZkReveals pairs tr).length = tr.length := by
  intro pairs
  induction pairs with
  | nil => intro tr; rfl
  | cons q rest ih =>
    intro tr
    obtain ⟨i, pt⟩ := q
    simp [applyZkReveals, ih, setRevealAt_length]

lemma applyZkReveals_getD_notmem :
    ∀ (pairs : List (Nat × List Nat)) (tr : List Packet) (j : Nat),
      j ∉ pairs.map Prod.fst →
      (applyZkReveals pairs tr).getD j dummyPacket =
        tr.getD j dummyPacket := by
  intro pairs
  induction pairs with
  | nil => intro tr j _; rfl
  | cons q rest ih =>
    intro tr j hj
    obtain ⟨i, pt⟩ := q
    simp only [List.map_cons, List.mem_cons] at hj
    push_neg at hj
    simp only [applyZkReveals]
    rw [ih _ j hj.2, setRevealAt_getD_ne _ tr i j hj.1]

lemma applyZkReveals_getD_mem :
    ∀ (pairs : List (Nat × List Nat)) (tr : List Packet)
      (i : Nat) (pt : List Nat),
      pairs.Pairwise (fun a b => a.1 < b.1) → (i, pt) ∈ pairs →
      i < tr.length →
      (applyZkReveals pairs tr).getD i dummyPacket =
        { tr.getD i dummyPacket with reveal := some (.zk pt) } := by
  intro pairs
  induction pairs with
  | nil => intro tr i pt _ hmem; exact absurd hmem (List.not_mem_nil _)
  | cons q rest ih =>
    intro tr i pt hpw hmem hi
    obtain ⟨i0, pt0⟩ := q
    rw [List.pairwise_cons] at hpw
    obtain ⟨hlt, hpw'⟩ := hpw
    rcases List.mem_cons.mp hmem with heq | hmem'
    · cases heq
      simp only [applyZkReveals]
      have hnot : i ∉ rest.map Prod.fst := by
        intro hcon
        obtain ⟨a, hamem, haeq⟩ := List.mem_map.mp hcon
        have := hlt a hamem
        omega
      rw [applyZkReveals_getD_notmem rest _ i hnot,
        setRevealAt_getD_eq _ tr i hi]
    · simp only [applyZkReveals]
      have hne : i ≠ i0 := by
        have := hlt (i, pt) hmem'
        simp only at this
        omega
      rw [ih (setRevealAt (.zk pt0) i0 tr) i pt hpw' hmem'
        (by rw [setRevealAt_length]; exact hi)]
      rw [setRevealAt_getD_ne _ tr i0 i hne]

lemma gatherServerBlocksFrom_mem (ver : TlsVersion) :
    ∀ (tr : List Packet) (i0 j : Nat) (pt : List Nat),
      (j, pt) ∈ gatherServerBlocksFrom ver i0 tr →
      ∃ k, k < tr.length ∧ j = i0 + k ∧
        (tr.getD k dummyPacket).sender = .server ∧
        isAppDataB ver (tr.getD k dummyPacket) = true ∧
        ∃ pt0 ct, (tr.getD k dummyPacket).ctx = .ciphertext pt0 ct ∧
          pt = stripCT ver pt0 := by
  intro tr
  induction tr with
  | nil =>
    intro i0 j pt h
    simp [gatherServerBlocksFrom] at h
  | cons p rest ih =>
    intro i0 j pt h
    simp only [gatherServerBlocksFrom, List.mem_append] at h
    rcases h with h | h
    · split at h
      · rename_i pt0 ct hctx
        split at h
        · rename_i hcond
          simp only [List.mem_singleton, Prod.mk.injEq] at h
          obtain ⟨hj, hpt⟩ := h
          refine ⟨0, by simp, by omega, ?_, ?_, pt0, ct, ?_, hpt⟩
          · simpa [List.getD_cons_zero] using hcond.1
          · simpa [List.getD_cons_zero] using hcond.2
          · simpa [List.getD_cons_zero] using hctx
        · exact absurd h (List.not_mem_nil _)
      · exact absurd h (List.not_mem_nil _)
    · obtain ⟨k, hk, hj, hsend, happ, pt0, ct, hctx, hpt⟩ := ih (i0 + 1) j pt h
      refine ⟨k + 1, by simpa [Nat.succ_lt_succ_iff] using hk, by omega,
        ?_, ?_, pt0, ct, ?_, hpt⟩
      · rw [List.getD_cons_succ]; exact hsend
      · rw [List.getD_cons_succ]; exact happ
      · rw [List.getD_cons_succ]; exact hctx

lemma gatherServerBlocksFrom_pairwise (ver : TlsVersion) :
    ∀ (tr : List Packet) (i0 : Nat),
      (gatherServerBlocksFrom ver i0 tr).Pairwise
        (fun a b => a.1 < b.1) := by
  intro tr
  induction tr with
  | nil => intro i0; simp [gatherServerBlocksFrom]
  | cons p rest ih =>
    intro i0
    simp only [gatherServerBlocksFrom]
    rw [List.pairwise_append]
    refine ⟨?_, ih (i0 + 1), ?_⟩
    · split
      · split
        · simp
        · simp
      · simp
    · intro a ha b hb
      obtain ⟨j, ptb⟩ := b
      obtain ⟨k, _, hj, _⟩ := gatherServerBlocksFrom_mem ver rest (i0 + 1) j ptb hb
      have haeq : a.1 = i0 := by
        split at ha
        · split at ha
          · simp only [List.mem_singleton] at ha
            subst ha
            rfl
          · exact absurd ha (List.not_mem_nil _)
        · exact absurd ha (List.not_mem_nil _)
      simp only [haeq]
      omega

lemma getBlocksToRevealGo_mem (slices : List ArraySlice) :
    ∀ (blocks : List (Nat × List Nat)) (off j : Nat) (pt : List Nat),
      (j, pt) ∈ getBlocksToRevealGo slices blocks off →
      ∃ pt0, (j, pt0) ∈ blocks := by
  intro blocks
  induction blocks with
  | nil => intro off j pt h; simp [getBlocksToRevealGo] at h
  | cons b rest ih =>
    intro off j pt h
    obtain ⟨i, bpt⟩ := b
    simp only [getBlocksToRevealGo, List.mem_append] at h
    rcases h with h | h
    · split at h
      · exact absurd h (List.not_mem_nil _)
      · simp only [List.mem_singleton, Prod.mk.injEq] at h
        exact ⟨bpt, by simp [h.1]⟩
    · obtain ⟨pt0, hmem⟩ := ih (off + bpt.length) j pt h
      exact ⟨pt0, List.mem_cons_of_mem _ hmem⟩

lemma getBlocksToRevealGo_sublist (slices : List ArraySlice) :
    ∀ (blocks : List (Nat × List Nat)) (off : Nat),
      ((getBlocksToRevealGo slices blocks off).map Prod.fst).Sublist
        (blocks.map Prod.fst) := by
  intro blocks
  induction blocks with
  | nil => intro off; simp [getBlocksToRevealGo]
  | cons b rest ih =>
    intro off
    obtain ⟨i, bpt⟩ := b
    simp only [getBlocksToRevealGo, List.map_append, List.map_cons]
    split
    · simpa using (ih (off + bpt.length)).cons i
    · simpa using (ih (off + bpt.length)).cons₂ i

lemma getBlocksToReveal_pairwise (ver : TlsVersion) (tr : List Packet)
    (f : List Nat → List ArraySlice) :
    (getBlocksToReveal (gatherServerBlocks ver tr) f).Pairwise
      (fun a b => a.1 < b.1) := by
  have hgather := gatherServerBlocksFrom_pairwise ver tr 0
  have hsub := getBlocksToRevealGo_sublist
    (f ((gatherServerBlocks ver tr).map Prod.snd).flatten)
    (gatherServerBlocks ver tr) 0
  rw [← List.pairwise_map (f := Prod.fst)] at hgather ⊢
  exact List.Pairwise.sublist hsub hgather

lemma serverScan_length (ver : TlsVersion)
    (ro : Option (List Nat → List ArraySlice)) (tr : List Packet) :
    (serverScan ver ro tr).length = tr.length := by
  cases ro with
  | none => simp [serverScan]
  | some f => simp [serverScan, applyZkReveals_length]

lemma serverScan_client_getD (ver : TlsVersion)
    (ro : Option (List Nat → List ArraySlice)) (tr : List Packet) (j : Nat)
    (hs : (tr.getD j dummyPacket).sender = .client) :
    (serverScan ver ro tr).getD j dummyPacket = tr.getD j dummyPacket := by
  cases ro with
  | none =>
    by_cases hj : j < tr.length
    · simp only [serverScan]
      rw [getD_map_of_lt _ tr dummyPacket dummyPacket j hj]
      rw [if_neg (by rw [hs]; simp)]
    · have hj' : tr.length ≤ j := by omega
      have h1 : (serverScan ver none tr).getD j dummyPacket = dummyPacket := by
        apply getD_of_length_le
        simp only [serverScan, List.length_map]
        omega
      rw [h1, getD_of_length_le tr dummyPacket j hj']
  | some f =>
    apply applyZkReveals_getD_notmem
    intro hcon
    obtain ⟨a, hamem, haeq⟩ := List.mem_map.mp hcon
    obtain ⟨j', pt⟩ := a
    simp only at haeq
    subst haeq
    obtain ⟨pt0, hmem0⟩ := getBlocksToRevealGo_mem _ _ _ _ _ hamem
    obtain ⟨k, _, hjk, hsend, _⟩ :=
      gatherServerBlocksFrom_mem ver tr 0 j' pt0 hmem0
    have hjeq : j' = k := by omega
    subst hjeq
    rw [hs] at hsend
    exact Sender.noConfusion hsend

lemma firstClientAppData_map (ver : TlsVersion) (f : Packet → Packet)
    (hf : ∀ p, hsBreakPred ver (f p) = hsBreakPred ver p) :
    ∀ tr, firstClientAppData ver (tr.map f) = firstClientAppData ver tr := by
  intro tr
  induction tr with
  | nil => rfl
  | cons p rest ih =>
    simp only [List.map_cons, firstClientAppData, hf p, ih]

lemma firstClientAppData_setRevealAt (ver : TlsVersion) (r : Reveal) :
    ∀ (tr : List Packet) (i : Nat),
      firstClientAppData ver (setRevealAt r i tr) =
        firstClientAppData ver tr := by
  intro tr
  induction tr with
  | nil => intro i; cases i <;> rfl
  | cons p rest ih =>
    intro i
    cases i with
    | zero =>
      simp only [setRevealAt, firstClientAppData, hsBreakPred_set_reveal]
    | succ n =>
      simp only [setRevealAt, firstClientAppData, ih n]

lemma firstClientAppData_applyZk (ver : TlsVersion) :
    ∀ (pairs : List (Nat × List Nat)) (tr : List Packet),
      firstClientAppData ver (applyZkReveals pairs tr) =
        firstClientAppData ver tr := by
  intro pairs
  induction pairs with
  | nil => intro tr; rfl
  | cons q rest ih =>
    intro tr
    obtain ⟨i, pt⟩ := q
    simp only [applyZkReveals]
    rw [ih, firstClientAppData_setRevealAt]

lemma firstClientAppData_serverScan (ver : TlsVersion)
    (ro : Option (List Nat → List ArraySlice)) (tr : List Packet) :
    firstClientAppData ver (serverScan ver ro tr) =
      firstClientAppData ver tr := by
  cases ro with
  | none =>
    apply firstClientAppData_map
    intro p
    split
    · exact hsBreakPred_set_reveal ver p _
    · rfl
  | some f => exact firstClientAppData_applyZk ver _ tr

/-- C3 — At finalize, every client ciphertext record strictly before the
first client application-data record receives the handshake decision
(`Complete`, or under zk write mode `ZK` with the record's full
plaintext); client plaintext records in that region and every client
record at or after the first client application-data record are left
exactly as written (the scan breaks there). -/
theorem finishMark_handshake_scan (mode : WriteMode) (ver : TlsVersion)
    (ro : Option (List Nat → List ArraySlice)) (tr : List Packet) :
    (finishMark mode ver ro tr).length = tr.length ∧
    (∀ i pt ct, i < firstClientAppData ver tr →
      (tr.getD i dummyPacket).sender = .client →
      (tr.getD i dummyPacket).ctx = .ciphertext pt ct →
      (finishMark mode ver ro tr).getD i dummyPacket =
        { tr.getD i dummyPacket with
            reveal := some (hsDecision mode pt) }) ∧
    (∀ i, i < firstClientAppData ver tr →
      (tr.getD i dummyPacket).sender = .client →
      (tr.getD i dummyPacket).ctx = .plaintext →
      (finishMark mode ver ro tr).getD i dummyPacket =
        tr.getD i dummyPacket) ∧
    (∀ i, firstClientAppData ver tr ≤ i →
      (tr.getD i dummyPacket).sender = .client →
      (finishMark mode ver ro tr).getD i dummyPacket =
        tr.getD i dummyPacket) := by
  have hlenS : (serverScan ver ro tr).length = tr.length :=
    serverScan_length ver ro tr
  have hkS : firstClientAppData ver (serverScan ver ro tr) =
      firstClientAppData ver tr := firstClientAppData_serverScan ver ro tr
  have hkle : firstClientAppData ver tr ≤ tr.length :=
    firstClientAppData_le_length ver tr
  have hexp : finishMark mode ver ro tr =
      ((serverScan ver ro tr).take (firstClientAppData ver tr)).map
        (hsMark mode) ++
      (serverScan ver ro tr).drop (firstClientAppData ver tr) := by
    rw [finishMark, clientScan_eq, hkS]
  have hflen :
      (((serverScan ver ro tr).take (firstClientAppData ver tr)).map
        (hsMark mode)).length = firstClientAppData ver tr := by
    simp only [List.length_map, List.length_take, hlenS]
    omega
  refine ⟨?_, ?_, ?_, ?_⟩
  · rw [hexp]
    simp only [List.length_append, hflen, List.length_drop, hlenS]
    omega
  · intro i pt ct hik hsend hctx
    rw [hexp, getD_append_lt _ _ _ i (by rw [hflen]; exact hik)]
    rw [getD_map_of_lt _ _ dummyPacket _ i
      (by simp only [List.length_take, hlenS]; omega)]
    rw [getD_take_of_lt _ _ _ i hik,
      serverScan_client_getD ver ro tr i hsend]
    have hgen : ∀ p : Packet, p.sender = .client →
        p.ctx = .ciphertext pt ct →
        hsMark mode p = { p with reveal := some (hsDecision mode pt) } := by
      intro p hps hpc
      simp [hsMark, hps, hpc]
    exact hgen _ hsend hctx
  · intro i hik hsend hctx
    rw [hexp, getD_append_lt _ _ _ i (by rw [hflen]; exact hik)]
    rw [getD_map_of_lt _ _ dummyPacket _ i
      (by simp only [List.length_take, hlenS]; omega)]
    rw [getD_take_of_lt _ _ _ i hik,
      serverScan_client_getD ver ro tr i hsend]
    have hgen : ∀ p : Packet, p.sender = .client → p.ctx = .plaintext →
        hsMark mode p = p := by
      intro p hps hpc
      simp [hsMark, hps, hpc]
    exact hgen _ hsend hctx
  · intro i hki hsend
    by_cases hilen : i < tr.length
    · rw [hexp, getD_append_ge _ _ _ i (by rw [hflen]; exact hki), hflen]
      rw [getD_drop_add]
      have harith : firstClientAppData ver tr +
          (i - firstClientAppData ver tr) = i := by omega
      rw [harith, serverScan_client_getD ver ro tr i hsend]
    · have hge : tr.length ≤ i := by omega
      have h1 : (finishMark mode ver ro tr).getD i dummyPacket =
          dummyPacket := by
        apply getD_of_length_le
        rw [hexp]
        simp only [List.length_append, hflen, List.length_drop, hlenS]
        omega
      rw [h1, getD_of_length_le tr dummyPacket i hge]

/-- Witness transcript for C3: one client handshake ciphertext record
followed by the first client application-data record. -/
def c3Transcript : List Packet :=
  [{ headerFirstByte := 23, ctx := .ciphertext [1, 2] .handshake
     sender := .client, index := 0, reveal := none },
   { headerFirstByte := 23, ctx := .ciphertext [3, 4] .applicationData
     sender := .client, index := 1, reveal := some .complete }]

/-- Witness for C3 at a concrete transcript: the handshake record is
marked `Complete`, the application-data record keeps its per-write
decision. -/
theorem finishMark_handshake_scan_witness :
    ((finishMark .keyUpdate .tls13 none c3Transcript).getD 0 dummyPacket =
      { c3Transcript.getD 0 dummyPacket with
          reveal := some (hsDecision .keyUpdate [1, 2]) }) ∧
    ((finishMark .keyUpdate .tls13 none c3Transcript).getD 1 dummyPacket =
      c3Transcript.getD 1 dummyPacket) :=
  ⟨(finishMark_handshake_scan .keyUpdate .tls13 none c3Transcript).2.1
      0 [1, 2] .handshake (by decide) (by decide) (by decide),
    (finishMark_handshake_scan .keyUpdate .tls13 none c3Transcript).2.2.2
      1 (by decide) (by decide)⟩

/-- C4 — Server-side redaction at finalize: with no response-redaction
function every server record (in particular every server application-data
record) is marked `Complete`; with a function, exactly the matched blocks
returned by `getBlocksToReveal` are marked `ZK` with their redacted
plaintext, every other record — in particular every unmatched server
application-data record — is left untouched (no reveal decision is
added); and the blocks handed to the function carry the record's
plaintext with the trailing content-type byte stripped under TLS1.3. -/
theorem serverScan_redaction_spec (ver : TlsVersion)
    (f : List Nat → List ArraySlice) (tr : List Packet) :
    (∀ j, j < tr.length → (tr.getD j dummyPacket).sender = .server →
      (serverScan ver none tr).getD j dummyPacket =
        { tr.getD j dummyPacket with reveal := some .complete }) ∧
    (∀ j, j < tr.length → (tr.getD j dummyPacket).sender ≠ .server →
      (serverScan ver none tr).getD j dummyPacket =
        tr.getD j dummyPacket) ∧
    (∀ j pt, (j, pt) ∈ getBlocksToReveal (gatherServerBlocks ver tr) f →
      (serverScan ver (some f) tr).getD j dummyPacket =
        { tr.getD j dummyPacket with reveal := some (.zk pt) }) ∧
    (∀ j, j ∉ (getBlocksToReveal (gatherServerBlocks ver tr) f).map
        Prod.fst →
      (serverScan ver (some f) tr).getD j dummyPacket =
        tr.getD j dummyPacket) ∧
    (∀ j pt, (j, pt) ∈ gatherServerBlocks ver tr →
      j < tr.length ∧
      (tr.getD j dummyPacket).sender = .server ∧
      isAppDataB ver (tr.getD j dummyPacket) = true ∧
      ∃ pt0 ct, (tr.getD j dummyPacket).ctx = .ciphertext pt0 ct ∧
        pt = stripCT ver pt0) := by
  refine ⟨?_, ?_, ?_, ?_, ?_⟩
  · intro j hj hsend
    simp only [serverScan]
    rw [getD_map_of_lt _ tr dummyPacket dummyPacket j hj, if_pos hsend]
  · intro j hj hsend
    simp only [serverScan]
    rw [getD_map_of_lt _ tr dummyPacket dummyPacket j hj, if_neg hsend]
  · intro j pt hmem
    have hpw := getBlocksToReveal_pairwise ver tr f
    obtain ⟨pt0, hmem0⟩ := getBlocksToRevealGo_mem _ _ _ _ _ hmem
    obtain ⟨k, hk, hjk, _⟩ :=
      gatherServerBlocksFrom_mem ver tr 0 j pt0 hmem0
    have hjlen : j < tr.length := by omega
    exact applyZkReveals_getD_mem _ tr j pt hpw hmem hjlen
  · intro j hnot
    exact applyZkReveals_getD_notmem _ tr j hnot
  · intro j pt hmem
    obtain ⟨k, hk, hjk, hsend, happ, pt0, ct, hctx, hpt⟩ :=
      gatherServerBlocksFrom_mem ver tr 0 j pt hmem
    have hjeq : j = k := by omega
    subst hjeq
    exact ⟨hk, hsend, happ, pt0, ct, hctx, hpt⟩

/-- Witness transcript for C4: a single server application-data record. -/
def c4Transcript : List Packet :=
  [{ headerFirstByte := 23, ctx := .ciphertext [5, 6, 7] .applicationData
     sender := .server, index := 0, reveal := none }]

/-- Witness for C4 at a concrete transcript and redaction function that
discloses the first response byte. -/
theorem serverScan_redaction_spec_witness :
    ((serverScan .tls12 none c4Transcript).getD 0 dummyPacket =
      { c4Transcript.getD 0 dummyPacket with
          reveal := some .complete }) ∧
    ((serverScan .tls12 (some fun _ => [⟨0, 1⟩]) c4Transcript).getD 0
        dummyPacket =
      { c4Transcript.getD 0 dummyPacket with
          reveal := some (.zk [5, redactionCharCode, redactionCharCode]) }) :=
  ⟨(serverScan_redaction_spec .tls12 (fun _ => [⟨0, 1⟩]) c4Transcript).1
      0 (by decide) (by decide),
    (serverScan_redaction_spec .tls12 (fun _ => [⟨0, 1⟩]) c4Transcript).2.2.1
      0 [5, redactionCharCode, redactionCharCode] (by decide)⟩

/-! ## Session record flow (relay indices, pull loop)

The interleaved record flow of a session is modelled as a list of events:
client writes (`tls.write` → relay push, whose response carries the
authoritative index), server records decoded from the pull stream (the
`onRead` append with index `-1` followed by the index patch on the last
server block), the readiness marker, and reveal-decision updates on the
last block of a sender. -/

inductive SessionEv where
  | clientWrite (idx : Int) (h0 : Nat) (ctx : PacketCtx)
  | serverRead (idx : Int) (h0 : Nat) (ctx : PacketCtx)
  | serverReady
  | setReveal (s : Sender) (r : Option Reveal)
deriving Repr

/-- One step of the session record flow on the `allPackets` transcript. -/
def stepEv (tr : List Packet) : SessionEv → List Packet
  | .clientWrite idx h0 ctx =>
    tr ++ [{ headerFirstByte := h0, ctx := ctx, sender := .client
             index := idx, reveal := none }]
  | .serverReady => tr
  | .serverRead idx h0 ctx =>
    modifyLastBySender .server (fun p => { p with index := idx })
      (tr ++ [{ headerFirstByte := h0, ctx := ctx, sender := .server
                index := -1, reveal := none }])
  | .setReveal s r =>
    modifyLastBySender s (fun p => { p with reveal := r }) tr

def runSession (tr : List Packet) (evs : List SessionEv) : List Packet :=
  evs.foldl stepEv tr

/-- The index-carrying identity of a record (everything except the
mutable reveal decision). -/
def recordCore (p : Packet) : Nat × PacketCtx × Sender × Int :=
  (p.headerFirstByte, p.ctx, p.sender, p.index)

/-- Relay-assigned indices of one sender's records, in append order. -/
def transcriptIndices (s : Sender) (tr : List Packet) : List Int :=
  (tr.filter fun p => decide (p.sender = s)).map Packet.index

/-- Indices a sender's records are assigned by the relay, in event
order: push-response indices for the client, pull-stream indices for the
server. -/
def evIndices (s : Sender) (evs : List SessionEv) : List Int :=
  evs.filterMap fun e =>
    match e with
    | .clientWrite idx _ _ => if s = .client then some idx else none
    | .serverRead idx _ _ => if s = .server then some idx else none
    | _ => none

lemma transcriptIndices_append (s : Sender) (tr : List Packet)
    (p : Packet) :
    transcriptIndices s (tr ++ [p]) =
      transcriptIndices s tr ++
        (if p.sender = s then [p.index] else []) := by
  simp only [transcriptIndices, List.filter_append, List.map_append]
  congr 1
  by_cases h : p.sender = s
  · simp [List.filter, h]
  · simp [List.filter, h]

lemma modifyLast_reveal_map_core (s : Sender) (r : Option Reveal) :
    ∀ tr : List Packet,
      (modifyLastBySender s (fun p => { p with reveal := r }) tr).map
          recordCore = tr.map recordCore := by
  intro tr
  induction tr with
  | nil => rfl
  | cons p rest ih =>
    simp only [modifyLastBySender]
    split
    · simp only [List.map_cons, ih]
    · split
      · simp only [List.map_cons]
        rfl
      · rfl

lemma modifyLast_reveal_transcriptIndices (s' s : Sender)
    (r : Option Reveal) :
    ∀ tr : List Packet,
      transcriptIndices s'
          (modifyLastBySender s (fun p => { p with reveal := r }) tr) =
        transcriptIndices s' tr := by
  intro tr
  induction tr with
  | nil => rfl
  | cons p rest ih =>
    simp only [modifyLastBySender]
    split
    · by_cases h' : p.sender = s'
      · simp only [transcriptIndices] at ih ⊢
        simp [List.filter_cons, h', ih]
      · simp only [transcriptIndices] at ih ⊢
        simp [List.filter_cons, h', ih]
    · split
      · by_cases h' : p.sender = s'
        · simp [transcriptIndices, List.filter_cons, h']
        · simp [transcriptIndices, List.filter_cons, h']
      · rfl

lemma stepEv_serverRead_eq (tr : List Packet) (idx : Int) (h0 : Nat)
    (ctx : PacketCtx) :
    stepEv tr (.serverRead idx h0 ctx) =
      tr ++ [{ headerFirstByte := h0, ctx := ctx, sender := .server
               index := idx, reveal := none }] := by
  simp only [stepEv]
  rw [modifyLastBySender_append Sender.server
    (fun p => { p with index := idx }) tr
    { headerFirstByte := h0, ctx := ctx, sender := .server
      index := -1, reveal := none } rfl]

lemma runSession_transcriptIndices (s : Sender) :
    ∀ (evs : List SessionEv) (tr : List Packet),
      transcriptIndices s (runSession tr evs) =
        transcriptIndices s tr ++ evIndices s evs := by
  intro evs
  induction evs with
  | nil => intro tr; simp [runSession, evIndices]
  | cons e evs' ih =>
    intro tr
    have hrun : runSession tr (e :: evs') = runSession (stepEv tr e) evs' :=
      rfl
    rw [hrun, ih]
    cases e with
    | clientWrite idx h0 ctx =>
      have hstep : stepEv tr (.clientWrite idx h0 ctx) =
          tr ++ [{ headerFirstByte := h0, ctx := ctx, sender := .client
                   index := idx, reveal := none }] := rfl
      rw [hstep, transcriptIndices_append]
      cases s with
      | client =>
        simp [evIndices, List.filterMap_cons, List.append_assoc]
      | server =>
        simp [evIndices, List.filterMap_cons, List.append_assoc]
    | serverRead idx h0 ctx =>
      rw [stepEv_serverRead_eq, transcriptIndices_append]
      cases s with
      | client =>
        simp [evIndices, List.filterMap_cons, List.append_assoc]
      | server =>
        simp [evIndices, List.filterMap_cons, List.append_assoc]
    | serverReady =>
      simp [stepEv, evIndices, List.filterMap_cons]
    | setReveal s' r =>
      simp only [stepEv]
      rw [modifyLast_reveal_transcriptIndices]
      simp [evIndices, List.filterMap_cons]

lemma runSession_append_only :
    ∀ (evs : List SessionEv) (tr : List Packet),
      ∃ suffix, (runSession tr evs).map recordCore =
        tr.map recordCore ++ suffix := by
  intro evs
  induction evs with
  | nil => intro tr; exact ⟨[], by simp [runSession]⟩
  | cons e evs' ih =>
    intro tr
    obtain ⟨suf, hsuf⟩ := ih (stepEv tr e)
    have hrun : runSession tr (e :: evs') = runSession (stepEv tr e) evs' :=
      rfl
    cases e with
    | clientWrite idx h0 ctx =>
      refine ⟨recordCore (Packet.mk h0 ctx .client idx none) :: suf, ?_⟩
      rw [hrun, hsuf]
      have hstep : stepEv tr (.clientWrite idx h0 ctx) =
          tr ++ [Packet.mk h0 ctx .client idx none] := rfl
      rw [hstep]
      simp [List.map_append]
    | serverRead idx h0 ctx =>
      refine ⟨recordCore (Packet.mk h0 ctx .server idx none) :: suf, ?_⟩
      rw [hrun, hsuf, stepEv_serverRead_eq]
      simp [List.map_append]
    | serverReady =>
      exact ⟨suf, by rw [hrun, hsuf]; rfl⟩
    | setReveal s' r =>
      refine ⟨suf, ?_⟩
      rw [hrun, hsuf]
      simp only [stepEv]
      rw [modifyLast_reveal_map_core]

/-- C9 — The transcript is append-only (the record cores of an already
recorded transcript are preserved, new records only appended), the
relay-assigned per-sender indices of the resulting transcript are exactly
the push-response indices (client) resp. pull-stream indices (server) in
event order, and whenever the relay assigns strictly increasing indices
per sender the per-sender transcript indices strictly increase in append
order. -/
theorem session_transcript_indices (evs : List SessionEv) :
    (∀ tr, ∃ suffix, (runSession tr evs).map recordCore =
      tr.map recordCore ++ suffix) ∧
    transcriptIndices .client (runSession [] evs) =
      evIndices .client evs ∧
    transcriptIndices .server (runSession [] evs) =
      evIndices .server evs ∧
    ((evIndices .client evs).Pairwise (· < ·) →
      (transcriptIndices .client (runSession [] evs)).Pairwise (· < ·)) ∧
    ((evIndices .server evs).Pairwise (· < ·) →
      (transcriptIndices .server (runSession [] evs)).Pairwise (· < ·)) := by
  have hc := runSession_transcriptIndices .client evs []
  have hs := runSession_transcriptIndices .server evs []
  simp only [transcriptIndices, List.filter_nil, List.map_nil,
    List.nil_append] at hc hs
  refine ⟨runSession_append_only evs, hc, hs, ?_, ?_⟩
  · intro hpw
    rw [show transcriptIndices .client (runSession [] evs) =
      evIndices .client evs from hc]
    exact hpw
  · intro hpw
    rw [show transcriptIndices .server (runSession [] evs) =
      evIndices .server evs from hs]
    exact hpw

/-- Witness for C9 at a concrete event sequence with strictly increasing
relay indices. -/
theorem session_transcript_indices_witness :
    (transcriptIndices .client
      (runSession [] [.clientWrite 0 23 .plaintext,
        .serverRead 1 23 .plaintext,
        .clientWrite 2 23 (.ciphertext [9] .applicationData)])).Pairwise
      (· < ·) :=
  (session_transcript_indices
    [.clientWrite 0 23 .plaintext, .serverRead 1 23 .plaintext,
      .clientWrite 2 23 (.ciphertext [9] .applicationData)]).2.2.2.1
    (by decide)

/-! ## Error handling: pull loop and request write -/

/-- gRPC status codes relevant to the session layer
(`nice-grpc-common` `Status`). -/
inductive GrpcStatus where
  | failedPrecondition
  | internal
  | unknownStatus
deriving DecidableEq, Repr

/-- An error as observed by the session layer: whether it is a relay
`ClientError`, its status code and its message. -/
structure ErrModel where
  isClientError : Bool
  code : GrpcStatus
  message : List Char
deriving DecidableEq, Repr

/-- Whether `needle` occurs at the start of `haystack`. -/
def charsStartWith : List Char → List Char → Bool
  | [], _ => true
  | _ :: _, [] => false
  | a :: as, b :: bs => a == b && charsStartWith as bs

/-- JS `message.includes(needle)`. -/
def containsSub (needle : List Char) : List Char → Bool
  | [] => needle.isEmpty
  | b :: bs => charsStartWith needle (b :: bs) || containsSub needle bs

def abortedChars : List Char := "aborted".data

def sessionClosedChars : List Char := "session is closed".data

/-- One pull-stream item: the readiness marker (empty record header) or a
server record with its relay index and decoded context. -/
inductive PullItem where
  | ready
  | record (idx : Int) (h0 : Nat) (ctx : PacketCtx)
deriving Repr

/-- Body of the `for await` pull loop: the readiness marker triggers the
`onReady` callback and appends nothing; a record is fed to
`tls.handleReceivedPacket` (appending a server record) and the last
server block receives the stream index. -/
def pullStep (tr : List Packet) : PullItem → List Packet
  | .ready => tr
  | .record idx h0 ctx => stepEv tr (.serverRead idx h0 ctx)

def processItems (tr : List Packet) (items : List PullItem) : List Packet :=
  items.foldl pullStep tr

/-- Observable outcome of `listenToDataFromServer`: the transcript, the
sequence of `tls.end` calls performed (with their error argument) and the
error re-raised to the caller, if any. -/
structure ListenResult where
  transcript : List Packet
  tlsEnds : List (Option ErrModel)
  raised : Option ErrModel
deriving DecidableEq, Repr

/-- `listenToDataFromServer`: process the pull stream; on normal stream
end call `tls.end()`; on an abort error (message containing `'aborted'`)
swallow it and perform the same normal teardown; on any other stream
error call `tls.end(error)` first and then re-raise that error. -/
def listenToDataFromServer (tr : List Packet) (items : List PullItem)
    (outcome : Option ErrModel) : ListenResult :=
  match outcome with
  | none => ⟨processItems tr items, [none], none⟩
  | some e =>
    if containsSub abortedChars e.message then
      ⟨processItems tr items, [none], none⟩
    else
      ⟨processItems tr items, [some e], some e⟩

/-- C6 — Every error raised inside the pull loop that stems from
caller-initiated cancellation (its message contains `'aborted'`) is
swallowed: no error surfaces and the loop performs the normal
`tls.end()` teardown.  Every other stream error is re-raised, and only
after `tls.end(error)` has been called with that error; a normally ended
stream also tears the TLS session down without error. -/
theorem pullLoop_error_handling (tr : List Packet) (items : List PullItem)
    (e : ErrModel) :
    (listenToDataFromServer tr items none =
      ⟨processItems tr items, [none], none⟩) ∧
    (containsSub abortedChars e.message = true →
      listenToDataFromServer tr items (some e) =
        ⟨processItems tr items, [none], none⟩) ∧
    (containsSub abortedChars e.message = false →
      listenToDataFromServer tr items (some e) =
        ⟨processItems tr items, [some e], some e⟩) := by
  refine ⟨rfl, ?_, ?_⟩
  · intro h
    simp [listenToDataFromServer, h]
  · intro h
    simp [listenToDataFromServer, h]

/-- Witness for C6: an abort error is swallowed, a TLS alert error is
ended-with and re-raised. -/
theorem pullLoop_error_handling_witness :
    (listenToDataFromServer [] [] (some
        ⟨false, .unknownStatus, "The operation was aborted".data⟩) =
      ⟨[], [none], none⟩) ∧
    (listenToDataFromServer [] [] (some
        ⟨false, .internal, "alert received".data⟩) =
      ⟨[], [some ⟨false, .internal, "alert received".data⟩,],
        some ⟨false, .internal, "alert received".data⟩⟩) :=
  ⟨(pullLoop_error_handling [] []
      ⟨false, .unknownStatus, "The operation was aborted".data⟩).2.1
      (by decide),
    (pullLoop_error_handling [] []
      ⟨false, .internal, "alert received".data⟩).2.2
      (by decide)⟩

/-! ## Orchestrator: tolerated mid-write relay failure
(`generateProviderReceipt`) -/

/-- The tolerated mid-write relay failure: a relay `ClientError` with
status FAILED_PRECONDITION whose message contains
`'session is closed'`. -/
def isToleratedWriteErr (e : ErrModel) : Bool :=
  e.isClientError && (e.code == .failedPrecondition) &&
    containsSub sessionClosedChars e.message

/-- The `try { await apiClient.write(...) } catch(err) { ... }` block:
a tolerated session-closed precondition error is logged and swallowed,
any other write error is re-thrown immediately. -/
def sendRequestData (writeErr : Option ErrModel) : Except ErrModel Unit :=
  match writeErr with
  | none => .ok ()
  | some err =>
    if err.isClientError && (err.code == .failedPrecondition) &&
        containsSub sessionClosedChars err.message then
      .ok ()
    else
      .error err

/-- `await waitForAllData`: resolves on a clean stream end, rejects with
the stream-end error otherwise. -/
def awaitAllData : Option ErrModel → Except ErrModel Unit
  | some e => .error e
  | none => .ok ()

/-- The request-sending phase of `generateProviderReceipt`: perform the
write (with its catch block) and then await the terminal stream-end
signal. -/
def runRequestPhase (writeErr streamEndErr : Option ErrModel) :
    Except ErrModel Unit :=
  match sendRequestData writeErr with
  | .error e => .error e
  | .ok _ => awaitAllData streamEndErr

/-- C5 — A mid-write relay failure that is a failed-precondition client
error whose message indicates the session is closed is not raised: the
orchestrator proceeds to await the terminal stream-end signal, and a
stream-end error (not the original write error) is what surfaces; any
other write error is re-raised immediately, regardless of the stream
end. -/
theorem writeSessionClosed_tolerated (e : ErrModel)
    (se : Option ErrModel) :
    (e.isClientError = true → e.code = .failedPrecondition →
      containsSub sessionClosedChars e.message = true →
      runRequestPhase (some e) se = awaitAllData se) ∧
    (∀ e', e.isClientError = true → e.code = .failedPrecondition →
      containsSub sessionClosedChars e.message = true →
      runRequestPhase (some e) (some e') = .error e') ∧
    (isToleratedWriteErr e = false →
      runRequestPhase (some e) se = .error e) ∧
    runRequestPhase none se = awaitAllData se := by
  refine ⟨?_, ?_, ?_, rfl⟩
  · intro h1 h2 h3
    simp [runRequestPhase, sendRequestData, h1, h2, h3]
  · intro e' h1 h2 h3
    simp [runRequestPhase, sendRequestData, awaitAllData, h1, h2, h3]
  · intro h
    simp only [isToleratedWriteErr] at h
    simp [runRequestPhase, sendRequestData, h]

/-- Witness for C5: a concrete tolerated session-closed error lets the
stream-end error surface; a concrete other error is raised directly. -/
theorem writeSessionClosed_tolerated_witness :
    (runRequestPhase
      (some ⟨true, .failedPrecondition,
        "9 FAILED_PRECONDITION: session is closed".data⟩)
      (some ⟨false, .internal, "connection reset".data⟩) =
      .error ⟨false, .internal, "connection reset".data⟩) ∧
    (runRequestPhase (some ⟨false, .internal, "network down".data⟩)
        none =
      .error ⟨false, .internal, "network down".data⟩) :=
  ⟨(writeSessionClosed_tolerated
      ⟨true, .failedPrecondition,
        "9 FAILED_PRECONDITION: session is closed".data⟩
      (some ⟨false, .internal, "connection reset".data⟩)).2.1
      ⟨false, .internal, "connection reset".data⟩
      (by decide) (by decide) (by decide),
    (writeSessionClosed_tolerated
      ⟨false, .internal, "network down".data⟩ none).2.2.1
      (by decide)⟩

/-! ## Session lifecycle: `cancel` and the `finish` guard -/

/-- The closure state of `makeAPITLSClient` relevant to the lifecycle
operations: the session id assigned by `initialiseSession` (absent before
a successful `connect`), the transcript, the negotiated write mode and
version, and the teardown flags (pull-stream abort, relay cancel,
`tls.end`). -/
structure ClientState where
  sessionId : Option Nat
  transcript : List Packet
  writeMode : WriteMode
  version : TlsVersion
  pullAborted : Bool
  relayCancelled : Bool
  tlsEnded : Bool
deriving DecidableEq, Repr

/-- The InvalidState error both `cancel` and `finish` throw when no
session id has been assigned (`new Error('Nothing to cancel')`). -/
def invalidStateErr : ErrModel :=
  { isClientError := false, code := .unknownStatus
    message := "Nothing to cancel".data }

/-- `cancel()`: guard on the session id, then abort the pull stream,
request relay cancellation and end the TLS session.  The session id is
never cleared and the transcript is not touched. -/
def cancelOp (st : ClientState) : Option ErrModel × ClientState :=
  match st.sessionId with
  | none => (some invalidStateErr, st)
  | some _ =>
    (none, { st with pullAborted := true, relayCancelled := true
                     tlsEnded := true })

/-- `finish()`: guard on the session id, then mark the transcript
(server-side disclosure and handshake scan), finalise with the relay,
end the TLS session and abort the pull stream. -/
def finishOp (ro : Option (List Nat → List ArraySlice))
    (st : ClientState) : Option ErrModel × ClientState :=
  match st.sessionId with
  | none => (some invalidStateErr, st)
  | some _ =>
    (none, { st with
        transcript := finishMark st.writeMode st.version ro st.transcript
        tlsEnded := true, pullAborted := true })

/-- C7 — `cancel` is idempotent: once a `cancel` has succeeded, calling
it again succeeds as well (it does not throw) and appends no further
client records — the transcript is unchanged by both calls. -/
theorem cancel_idempotent (st : ClientState) :
    (cancelOp st).1 = none →
    ((cancelOp (cancelOp st).2).1 = none ∧
      (cancelOp (cancelOp st).2).2.transcript =
        (cancelOp st).2.transcript ∧
      (cancelOp st).2.transcript = st.transcript) := by
  intro h
  match hsid : st.sessionId with
  | none => simp [cancelOp, hsid] at h
  | some sid => simp [cancelOp, hsid]

/-- Witness for C7 at a concrete initialised session state. -/
theorem cancel_idempotent_witness :
    (cancelOp (cancelOp
        ⟨some 1, [], .keyUpdate, .tls13, false, false, false⟩).2).1 =
      none ∧
    (cancelOp (cancelOp
        ⟨some 1, [], .keyUpdate, .tls13, false, false, false⟩).2).2.transcript =
      (cancelOp
        ⟨some 1, [], .keyUpdate, .tls13, false, false, false⟩).2.transcript ∧
    (cancelOp
        ⟨some 1, [], .keyUpdate, .tls13, false, false, false⟩).2.transcript =
      ([] : List Packet) :=
  cancel_idempotent ⟨some 1, [], .keyUpdate, .tls13, false, false, false⟩
    (by decide)

/-- C8 — Calling `finish` or `cancel` while no session id has been
assigned (no successful `initialise`) fails with the InvalidState error
and leaves the session state — in particular the transcript — unchanged. -/
theorem uninitialised_invalid_state (st : ClientState)
    (ro : Option (List Nat → List ArraySlice)) :
    st.sessionId = none →
    cancelOp st = (some invalidStateErr, st) ∧
    finishOp ro st = (some invalidStateErr, st) := by
  intro h
  constructor
  · simp [cancelOp, h]
  · simp [finishOp, h]

/-- Witness for C8 at a concrete uninitialised state. -/
theorem uninitialised_invalid_state_witness :
    cancelOp ⟨none, [], .keyUpdate, .tls13, false, false, false⟩ =
      (some invalidStateErr,
        ⟨none, [], .keyUpdate, .tls13, false, false, false⟩) ∧
    finishOp none ⟨none, [], .keyUpdate, .tls13, false, false, false⟩ =
      (some invalidStateErr,
        ⟨none, [], .keyUpdate, .tls13, false, false, false⟩) :=
  uninitialised_invalid_state
    ⟨none, [], .keyUpdate, .tls13, false, false, false⟩ none rfl
